import Mathlib

/-!
BLE2WebSvc — MCP connection and execution engine: a shallow embedding

This file embeds the MCP server of the BLE2WebSvc repository (the `MCPServer`
class: TCP line framer, envelope codec and normalization, auth gate, tool
registry, execution engine with cancellation, subscriber fan-out, and the BLE
subscription bookkeeping) as executable Lean definitions, and proves or refutes
the specification's claims about it.

Conventions used throughout:
* JavaScript values appearing on the wire are modelled by `JsonValue`
  (the image of `JSON.parse`); `undefined` is modelled by `Option`.
* JS `Map`s are modelled by association lists with `Map.set` overwrite
  semantics (`setKey`) and `Map.get` lookup (`lookupKey`).
* `JSON.parse(raw)` either throws or yields a value; the server's behaviour
  depends on the raw line only through that outcome, so message handling takes
  the parse outcome (`Option JsonValue`) as its input.
-/

namespace BLE2WebSvc

/-- A JSON value, the image of `JSON.parse` (numbers restricted to integers;
no claim in this development involves non-integral numerics). -/
inductive JsonValue where
  | null
  | bool (b : Bool)
  | num (n : Int)
  | str (s : String)
  | arr (elems : List JsonValue)
  | obj (fields : List (String × JsonValue))

/-- JavaScript truthiness of a JSON value (`undefined` is handled by `Option`
at use sites). -/
def jsTruthy : JsonValue → Bool
  | .null => false
  | .bool b => b
  | .num n => n != 0
  | .str s => s != ""
  | .arr _ => true
  | .obj _ => true

/-- Lookup (`Map.get`-style) in an association list (first match; the maps built
by the server keep keys distinct, `setKey` overwriting in place). -/
def lookupKey {κ α : Type} [DecidableEq κ] (m : List (κ × α)) (k : κ) : Option α :=
  match m with
  | [] => none
  | (k', v) :: rest => if k' = k then some v else lookupKey rest k

/-- Overwrite (`Map.set`) the binding for `k` in place, or append a new one
(JS `Map.set` keeps insertion order and appends unknown keys at the end). -/
def setKey {κ α : Type} [DecidableEq κ] (m : List (κ × α)) (k : κ) (v : α) :
    List (κ × α) :=
  match m with
  | [] => [(k, v)]
  | (k', v') :: rest => if k' = k then (k, v) :: rest else (k', v') :: setKey rest k v

/-- Remove (`Map.delete`) the binding for `k`. -/
def delKey {κ α : Type} [DecidableEq κ] (m : List (κ × α)) (k : κ) :
    List (κ × α) :=
  match m with
  | [] => []
  | (k', v') :: rest => if k' = k then rest else (k', v') :: delKey rest k

/-- Property access `v.k` on a JSON value: `none` models `undefined`
(non-objects have no own properties the server reads; parsed JSON objects have
distinct keys, so first-match lookup agrees with JS semantics). -/
def getField (v : JsonValue) (k : String) : Option JsonValue :=
  match v with
  | .obj fields => lookupKey fields k
  | _ => none

mutual
/-- JavaScript `String(v)` on a JSON value. -/
def jsToString : JsonValue → String
  | .null => "null"
  | .bool b => cond b "true" "false"
  | .num n => toString n
  | .str s => s
  | .obj _ => "[object Object]"
  | .arr xs => jsArrToString xs

/-- JS `Array.prototype.toString`: elements joined by commas. -/
def jsArrToString : List JsonValue → String
  | [] => ""
  | [x] => jsElemToString x
  | x :: xs => jsElemToString x ++ "," ++ jsArrToString xs

/-- An array element under `Array.prototype.join`: `null` becomes empty. -/
def jsElemToString : JsonValue → String
  | .null => ""
  | v => jsToString v
end

@[simp] theorem jsToString_str (s : String) : jsToString (.str s) = s := by
  simp [jsToString]

/-- JS `String.prototype.toLowerCase` on one character (ASCII fragment; every
`type` string this server compares against is ASCII). -/
def lowerChar (c : Char) : Char :=
  if 'A' ≤ c && c ≤ 'Z' then Char.ofNat (c.toNat + 32) else c

/-- JS `String.prototype.toLowerCase` (ASCII fragment). -/
def lowerStr (s : String) : String :=
  ⟨s.data.map lowerChar⟩

/-- An envelope as written to a socket: the `{type, id, payload}` object the
server serializes with `JSON.stringify` (field insertion order preserved). -/
structure Envelope where
  type : String
  id : JsonValue
  payload : JsonValue

/-- The keys of a JSON object, in insertion order (the order
`JSON.stringify` serializes them in). -/
def objKeys : JsonValue → List String
  | .obj fields => fields.map Prod.fst
  | _ => []

/-- The dispatcher's normalized `type`:
`(msg.type && String(msg.type).toLowerCase()) || null`. -/
def normType (msg : JsonValue) : Option String :=
  match getField msg "type" with
  | none => none
  | some v =>
    if jsTruthy v then
      let s := lowerStr (jsToString v)
      if s = "" then none else some s
    else none

/-- Normalized request id: `msg.id || null`. -/
def normId (msg : JsonValue) : JsonValue :=
  match getField msg "id" with
  | some v => if jsTruthy v then v else .null
  | none => .null

/-- Normalized payload: `msg.payload || {}`. -/
def payloadOf (msg : JsonValue) : JsonValue :=
  match getField msg "payload" with
  | some v => if jsTruthy v then v else .obj []
  | none => .obj []

/-- JS strict equality `v === s` between a possibly-`undefined` JSON value and
a string primitive: true exactly when `v` is that string. -/
def strictEqStr (v : Option JsonValue) (s : String) : Bool :=
  match v with
  | some (.str t) => t = s
  | _ => false

/-- The error envelope the server writes for a caught error `code` (the
`catch` at the end of `_handleMessage`, and the inline auth errors):
`{type:'mcp/error', id, payload:{code}}`. -/
def mcpErr (id : JsonValue) (code : String) : Envelope :=
  ⟨"mcp/error", id, .obj [("code", .str code)]⟩

/-! ## Connection framer

The `socket.on('data', ...)` handler of `_onConnection`: a string buffer is
extended with each chunk; while the buffer contains `'\n'`, the prefix before
the first `'\n'` is removed, trimmed, and dispatched when non-empty. We model
byte/character streams as `List Char`. -/

/-- The characters JS `String.prototype.trim` strips (ASCII fragment; the
claims do not depend on the Unicode remainder of the set). -/
def isJsWs (c : Char) : Bool :=
  c == ' ' || c == '\t' || c == '\n' || c == '\r' ||
  c == Char.ofNat 11 || c == Char.ofNat 12

/-- JS `line.trim()` on a character list. -/
def jsTrim (l : List Char) : List Char :=
  ((l.dropWhile isJsWs).reverse.dropWhile isJsWs).reverse

/-- Prepend a character to the first complete line of a split result, or to
the retained remainder when no line is complete. -/
def consFirst (c : Char) : List (List Char) × List Char → List (List Char) × List Char
  | ([], rest) => ([], c :: rest)
  | (l :: ls, rest) => ((c :: l) :: ls, rest)

/-- Split a buffer at every `'\n'`: the complete (newline-terminated) segments
in order, and the retained remainder after the last newline.  This is what the
`while ((idx = buffer.indexOf('\n')) >= 0)` loop of `_onConnection` computes. -/
def splitNl : List Char → List (List Char) × List Char
  | [] => ([], [])
  | c :: cs =>
    if c = '\n' then ([] :: (splitNl cs).1, (splitNl cs).2)
    else consFirst c (splitNl cs)

/-- Mirrors `const line = buffer.slice(0, idx).trim(); if (line.length) dispatch(line)`:
trim a raw segment and drop it when whitespace-only. -/
def emitRecord (l : List Char) : Option (List Char) :=
  let t := jsTrim l
  if t = [] then none else some t

/-- One `'data'` event: append the chunk to the buffer, drain every complete
line; returns the retained buffer and the dispatched records in order. -/
def framerFeed (buf chunk : List Char) : List Char × List (List Char) :=
  ((splitNl (buf ++ chunk)).2, (splitNl (buf ++ chunk)).1.filterMap emitRecord)

/-- A sequence of `'data'` events, threading the buffer and concatenating the
dispatched records in order. -/
def framerRun (buf : List Char) : List (List Char) → List Char × List (List Char)
  | [] => (buf, [])
  | c :: cs =>
    let fed := framerFeed buf c
    let rest := framerRun fed.1 cs
    (rest.1, fed.2 ++ rest.2)

theorem splitNl_append (x y : List Char) :
    splitNl (x ++ y) =
      ((splitNl x).1 ++ (splitNl ((splitNl x).2 ++ y)).1,
       (splitNl ((splitNl x).2 ++ y)).2) := by
  induction x with
  | nil => simp [splitNl]
  | cons c cs ih =>
    by_cases hc : c = '\n'
    · simp [splitNl, hc, ih]
    · rcases hsp : splitNl cs with ⟨ls, rest⟩
      rw [hsp] at ih
      rcases hA : splitNl (rest ++ y) with ⟨as, ar⟩
      rw [hA] at ih
      cases ls with
      | nil =>
        cases as with
        | nil => simp [splitNl, hc, hsp, ih, hA, consFirst]
        | cons a as' => simp [splitNl, hc, hsp, ih, hA, consFirst]
      | cons l ls' => simp [splitNl, hc, hsp, ih, hA, consFirst]

theorem splitNl_rest_no_newline (x : List Char) : '\n' ∉ (splitNl x).2 := by
  induction x with
  | nil => simp [splitNl]
  | cons c cs ih =>
    by_cases hc : c = '\n'
    · simpa [splitNl, hc] using ih
    · rcases hsp : splitNl cs with ⟨ls, rest⟩
      rw [hsp] at ih
      cases ls with
      | nil =>
        simp only [splitNl, hc, if_false, hsp, consFirst]
        intro hmem
        rcases List.mem_cons.mp hmem with h | h
        · exact hc h.symm
        · exact ih h
      | cons l ls' => simpa [splitNl, hc, hsp, consFirst] using ih

theorem splitNl_of_no_newline (x : List Char) (h : '\n' ∉ x) :
    splitNl x = ([], x) := by
  induction x with
  | nil => simp [splitNl]
  | cons c cs ih =>
    have hc : c ≠ '\n' := fun hcc => h (hcc ▸ List.mem_cons_self c cs)
    have hcs : '\n' ∉ cs := fun hm => h (List.mem_cons_of_mem c hm)
    simp [splitNl, fun hcc => hc hcc, ih hcs, consFirst]

theorem splitNl_terminated (x : List Char) (h : '\n' ∉ x) :
    splitNl (x ++ ['\n']) = ([x], []) := by
  induction x with
  | nil => simp [splitNl]
  | cons c cs ih =>
    have hc : c ≠ '\n' := fun hcc => h (hcc ▸ List.mem_cons_self c cs)
    have hcs : '\n' ∉ cs := fun hm => h (List.mem_cons_of_mem c hm)
    simp [splitNl, fun hcc => hc hcc, ih hcs, consFirst]

theorem framerFeed_append (buf a b : List Char) :
    framerFeed buf (a ++ b) =
      ((framerFeed (framerFeed buf a).1 b).1,
       (framerFeed buf a).2 ++ (framerFeed (framerFeed buf a).1 b).2) := by
  have h := splitNl_append (buf ++ a) b
  simp only [framerFeed, ← List.append_assoc, h, List.filterMap_append]

theorem framerRun_eq_feed_flatten (buf : List Char) (chunks : List (List Char))
    (h : '\n' ∉ buf) :
    framerRun buf chunks = framerFeed buf chunks.flatten := by
  induction chunks generalizing buf with
  | nil =>
    simp [framerRun, framerFeed, splitNl_of_no_newline buf h, emitRecord]
  | cons c cs ih =>
    have hb : '\n' ∉ (framerFeed buf c).1 := splitNl_rest_no_newline _
    simp only [framerRun, List.flatten_cons, framerFeed_append, ih _ hb]

/-- Claim C6 — the framer is chunking-invariant, each newline-terminated
segment is one (trimmed, non-whitespace) record, and the tail after the last
newline is retained.  Conjuncts: (1) any two chunkings of the same byte
stream, fed to a framer whose buffer holds no newline (the framer's invariant,
and the initial state), dispatch identical record sequences in identical order
and leave identical buffers; (2) feeding a newline-terminated segment drains
the buffer and emits exactly the one trimmed record (or none when
whitespace-only); (3) a chunk without a newline is wholly retained and
dispatches nothing. -/
theorem framer_chunking_invariant :
    (∀ (buf : List Char) (c1 c2 : List (List Char)), '\n' ∉ buf →
      c1.flatten = c2.flatten → framerRun buf c1 = framerRun buf c2) ∧
    (∀ buf line : List Char, '\n' ∉ buf ++ line →
      framerFeed buf (line ++ ['\n']) = ([], (emitRecord (buf ++ line)).toList)) ∧
    (∀ buf chunk : List Char, '\n' ∉ buf ++ chunk →
      framerFeed buf chunk = (buf ++ chunk, [])) := by
  refine ⟨?_, ?_, ?_⟩
  · intro buf c1 c2 h hj
    rw [framerRun_eq_feed_flatten buf c1 h, framerRun_eq_feed_flatten buf c2 h, hj]
  · intro buf line h
    have := splitNl_terminated (buf ++ line) h
    simp only [framerFeed, ← List.append_assoc, this, List.filterMap]
    cases emitRecord (buf ++ line) <;> simp
  · intro buf chunk h
    simp [framerFeed, splitNl_of_no_newline _ h]

/-- Witness for C6 at the spec's scenario: two complete records arriving in a
single read are dispatched exactly as when they arrive in two reads. -/
theorem framer_chunking_invariant_witness :
    framerRun [] [("alpha 1\nbeta 2\n").data] =
      framerRun [] [("alpha 1\nbe").data, ("ta 2\n").data] :=
  framer_chunking_invariant.1 [] _ _ (by simp) (by decide)

/-! ## Tool registry

`registerTool(toolDef, handler)` of `MCPServer`: `this.tools` is a JS `Map`
from `toolDef.id` to `{ meta: toolDef, handler }`.  Structural equality of
`JsonValue` stands in for the `Map`'s SameValueZero key equality; the two
agree on primitive keys (tool ids are strings in this repository). -/

mutual
/-- Structural equality of JSON values. -/
def jsonBeq : JsonValue → JsonValue → Bool
  | .null, .null => true
  | .bool a, .bool b => a == b
  | .num a, .num b => a == b
  | .str a, .str b => a == b
  | .arr a, .arr b => jsonListBeq a b
  | .obj a, .obj b => jsonFieldsBeq a b
  | _, _ => false

def jsonListBeq : List JsonValue → List JsonValue → Bool
  | [], [] => true
  | a :: as, b :: bs => jsonBeq a b && jsonListBeq as bs
  | _, _ => false

def jsonFieldsBeq : List (String × JsonValue) → List (String × JsonValue) → Bool
  | [], [] => true
  | (k1, v1) :: as, (k2, v2) :: bs => k1 == k2 && jsonBeq v1 v2 && jsonFieldsBeq as bs
  | _, _ => false
end

/-- A registered tool: `{ meta: toolDef, handler }` (handlers are opaque to
the registry, hence the type parameter). -/
structure ToolEntry (α : Type) where
  meta : JsonValue
  handler : α

/-- The registry lookup `this.tools.get(id)`, with structural key equality. -/
def lookupTool {α : Type} (tools : List (JsonValue × ToolEntry α)) (k : JsonValue) :
    Option (ToolEntry α) :=
  match tools with
  | [] => none
  | (k', e) :: rest => if jsonBeq k' k then some e else lookupTool rest k

/-- The method `registerTool(toolDef, handler)`:
`if (!toolDef || !toolDef.id) throw new Error('tool_def_missing_id');
if (this.tools.has(toolDef.id)) throw new Error('tool_already_registered');
this.tools.set(toolDef.id, { meta: toolDef, handler }); return toolDef.id;`.
Returns the registry after the call (unchanged when the call throws, since the
throws precede the `set`) together with the thrown error or returned id. -/
def registerTool {α : Type} (tools : List (JsonValue × ToolEntry α))
    (toolDef : Option JsonValue) (handler : α) :
    List (JsonValue × ToolEntry α) × Except String JsonValue :=
  match toolDef with
  | none => (tools, .error "tool_def_missing_id")
  | some d =>
    if jsTruthy d = false then (tools, .error "tool_def_missing_id")
    else
      match getField d "id" with
      | none => (tools, .error "tool_def_missing_id")
      | some idv =>
        if jsTruthy idv = false then (tools, .error "tool_def_missing_id")
        else if (lookupTool tools idv).isSome then (tools, .error "tool_already_registered")
        else (tools ++ [(idv, ⟨d, handler⟩)], .ok idv)

theorem lookupTool_append_self {α : Type} (tools : List (JsonValue × ToolEntry α))
    (s : String) (e : ToolEntry α) (h : lookupTool tools (.str s) = none) :
    lookupTool (tools ++ [(.str s, e)]) (.str s) = some e := by
  induction tools with
  | nil => simp [lookupTool, jsonBeq]
  | cons p rest ih =>
    obtain ⟨k', e'⟩ := p
    by_cases hk : jsonBeq k' (.str s)
    · simp [lookupTool, hk] at h
    · simp only [lookupTool, hk, if_false, List.cons_append, Bool.false_eq_true] at h ⊢
      exact ih h

/-- Claim C7 — `registerTool` fails (throwing a configuration error, the
registry unchanged) when the tool definition is missing, falsy, has a missing
or falsy (e.g. empty-string) id, or when the id is already registered — in
which case the first registration stays intact; otherwise it appends the
`{meta, handler}` tuple under the id and returns the id.  The last conjunct is
the spec's two-registration scenario: after a successful registration of a
fresh string id, registering any definition carrying the same id fails with
`tool_already_registered` and the stored entry is still the first one. -/
theorem registerTool_spec {α : Type} :
    (∀ (tools : List (JsonValue × ToolEntry α)) (h : α),
      registerTool tools none h = (tools, .error "tool_def_missing_id")) ∧
    (∀ tools (d : JsonValue) (h : α), jsTruthy d = true → getField d "id" = none →
      registerTool tools (some d) h = (tools, .error "tool_def_missing_id")) ∧
    (∀ tools (d idv : JsonValue) (h : α), jsTruthy d = true →
      getField d "id" = some idv → jsTruthy idv = false →
      registerTool tools (some d) h = (tools, .error "tool_def_missing_id")) ∧
    (∀ tools (d idv : JsonValue) (h : α) e, jsTruthy d = true →
      getField d "id" = some idv → jsTruthy idv = true →
      lookupTool tools idv = some e →
      registerTool tools (some d) h = (tools, .error "tool_already_registered")) ∧
    (∀ tools (d idv : JsonValue) (h : α), jsTruthy d = true →
      getField d "id" = some idv → jsTruthy idv = true →
      lookupTool tools idv = none →
      registerTool tools (some d) h = (tools ++ [(idv, ⟨d, h⟩)], .ok idv)) ∧
    (∀ tools (d d2 : JsonValue) (h h2 : α) (s : String),
      jsTruthy d = true → getField d "id" = some (.str s) → s ≠ "" →
      lookupTool tools (.str s) = none →
      jsTruthy d2 = true → getField d2 "id" = some (.str s) →
      lookupTool (registerTool tools (some d) h).1 (.str s) = some ⟨d, h⟩ ∧
      registerTool (registerTool tools (some d) h).1 (some d2) h2 =
        ((registerTool tools (some d) h).1, .error "tool_already_registered")) := by
  refine ⟨?_, ?_, ?_, ?_, ?_, ?_⟩
  · intro tools h; rfl
  · intro tools d h hd hid; simp [registerTool, hd, hid]
  · intro tools d idv h hd hid hfal; simp [registerTool, hd, hid, hfal]
  · intro tools d idv h e hd hid htr hdup; simp [registerTool, hd, hid, htr, hdup]
  · intro tools d idv h hd hid htr hfree; simp [registerTool, hd, hid, htr, hfree]
  · intro tools d d2 h h2 s hd hid hs hfree hd2 hid2
    have hts : jsTruthy (.str s) = true := by simp [jsTruthy, hs]
    have hstep : registerTool tools (some d) h =
        (tools ++ [(.str s, ⟨d, h⟩)], .ok (.str s)) := by
      simp [registerTool, hd, hid, hts, hfree]
    have hlook : lookupTool (tools ++ [(.str s, (⟨d, h⟩ : ToolEntry α))]) (.str s) =
        some ⟨d, h⟩ := lookupTool_append_self tools s _ hfree
    refine ⟨by rw [hstep]; exact hlook, ?_⟩
    rw [hstep]
    simp [registerTool, hd2, hid2, hts, hlook]

/-- Witness for C7: registering `{id:'echo'}` into an empty registry succeeds;
a second registration under `'echo'` fails and leaves the first entry intact;
registering `{id:''}` fails with the missing-id error. -/
theorem registerTool_spec_witness :
    lookupTool (registerTool ([] : List (JsonValue × ToolEntry Unit))
        (some (.obj [("id", .str "echo")])) ()).1 (.str "echo") =
      some ⟨.obj [("id", .str "echo")], ()⟩ ∧
    registerTool (registerTool ([] : List (JsonValue × ToolEntry Unit))
        (some (.obj [("id", .str "echo")])) ()).1
        (some (.obj [("id", .str "echo"), ("name", .str "other")])) () =
      ((registerTool ([] : List (JsonValue × ToolEntry Unit))
        (some (.obj [("id", .str "echo")])) ()).1, .error "tool_already_registered") ∧
    registerTool ([] : List (JsonValue × ToolEntry Unit))
        (some (.obj [("id", .str "")])) () = ([], .error "tool_def_missing_id") := by
  have h := (registerTool_spec (α := Unit)).2.2.2.2.2 []
    (.obj [("id", .str "echo")]) (.obj [("id", .str "echo"), ("name", .str "other")])
    () () "echo" rfl rfl (by simp) rfl rfl rfl
  have h3 := (registerTool_spec (α := Unit)).2.2.1 []
    (.obj [("id", .str "")]) (.str "") () rfl rfl rfl
  exact ⟨h.1, h.2, h3⟩

/-! ## Envelope decode and auth gate (`_handleMessage`, head section)

`_handleMessage(socket, raw)` first runs `JSON.parse(raw)`; on failure it
writes one `invalid_json` error and returns.  It then normalizes
`type`/`id`/`payload` and, when `this.authToken` is set and the socket is not
yet authenticated, handles the message entirely inside the auth gate; only
authenticated traffic (or all traffic when no token is configured) reaches the
dispatcher.  The dispatcher body (the long `if (type === ...)` chain) is a
parameter `dispatch` here: the claims settled against this head section hold
for every dispatcher behaviour, which is exactly what "never dispatched
further" means. -/

/-- The envelope written when `JSON.parse` throws:
`{type:'mcp/error', id:null, payload:{code:'invalid_json'}}`. -/
def invalidJsonEnv : Envelope :=
  ⟨"mcp/error", .null, .obj [("code", .str "invalid_json")]⟩

/-- The acknowledgement written on successful authentication:
`{type:'mcp/auth.ok', id, payload:{msg:'authenticated'}}`. -/
def authOkEnv (id : JsonValue) : Envelope :=
  ⟨"mcp/auth.ok", id, .obj [("msg", .str "authenticated")]⟩

/-- One `_handleMessage` call on one framed record.  `parsed` is the outcome
of `JSON.parse` on the record (`none` = parse threw); `authed` is
`socket._mcpAuthenticated`; `secret` is `this.authToken` (`none` = no token
configured); `st`/`dispatch` stand for the rest of the server state and the
dispatcher body.  Returns the new `(authenticated, state)` pair and the
envelopes written to the requesting socket, in order. -/
def handleLine {σ : Type} (secret : Option String)
    (dispatch : σ → JsonValue → σ × List Envelope)
    (authed : Bool) (st : σ) (parsed : Option JsonValue) :
    (Bool × σ) × List Envelope :=
  match parsed with
  | none => ((authed, st), [invalidJsonEnv])
  | some msg =>
    match secret with
    | some tok =>
      if authed then
        ((true, (dispatch st msg).1), (dispatch st msg).2)
      else if normType msg ≠ some "mcp/auth" then
        ((false, st), [mcpErr (normId msg) "authentication_required"])
      else if strictEqStr (getField (payloadOf msg) "token") tok = false then
        ((false, st), [mcpErr (normId msg) "invalid_token"])
      else
        ((true, st), [authOkEnv (normId msg)])
    | none =>
      ((authed, (dispatch st msg).1), (dispatch st msg).2)

/-- A connection's records processed strictly in receipt order, threading the
authentication flag and server state and concatenating the written envelopes. -/
def processLines {σ : Type} (secret : Option String)
    (dispatch : σ → JsonValue → σ × List Envelope)
    (authed : Bool) (st : σ) : List (Option JsonValue) → (Bool × σ) × List Envelope
  | [] => ((authed, st), [])
  | l :: ls =>
    let first := handleLine secret dispatch authed st l
    let rest := processLines secret dispatch first.1.1 first.1.2 ls
    (rest.1, first.2 ++ rest.2)

/-- Claim C4 — the authentication gate.  With a secret configured: an
unauthenticated envelope whose normalized type is not `mcp/auth` elicits
exactly one `authentication_required` error and reaches no handler (the result
is the same for every dispatcher); an `mcp/auth` envelope whose token differs
from the secret elicits `invalid_token` and leaves the connection
unauthenticated; a matching token flips the flag and writes the
acknowledgement; an authenticated connection dispatches everything (the flag
is never reset, so authentication lasts for the connection's lifetime).  With
no secret configured every envelope is dispatched without any auth step. -/
theorem auth_gate_spec {σ : Type} (dispatch : σ → JsonValue → σ × List Envelope)
    (st : σ) (tok : String) (msg : JsonValue) :
    (normType msg ≠ some "mcp/auth" →
      handleLine (some tok) dispatch false st (some msg) =
        ((false, st), [mcpErr (normId msg) "authentication_required"])) ∧
    (normType msg = some "mcp/auth" →
      strictEqStr (getField (payloadOf msg) "token") tok = false →
      handleLine (some tok) dispatch false st (some msg) =
        ((false, st), [mcpErr (normId msg) "invalid_token"])) ∧
    (normType msg = some "mcp/auth" →
      strictEqStr (getField (payloadOf msg) "token") tok = true →
      handleLine (some tok) dispatch false st (some msg) =
        ((true, st), [authOkEnv (normId msg)])) ∧
    (handleLine (some tok) dispatch true st (some msg) =
      ((true, (dispatch st msg).1), (dispatch st msg).2)) ∧
    (∀ authed, handleLine none dispatch authed st (some msg) =
      ((authed, (dispatch st msg).1), (dispatch st msg).2)) := by
  refine ⟨?_, ?_, ?_, rfl, fun _ => rfl⟩
  · intro hty; simp [handleLine, hty]
  · intro hty htok; simp [handleLine, hty, htok]
  · intro hty htok; simp [handleLine, hty, htok]

/-- Witness for C4: with secret `"s3cret"`, an unauthenticated
`mcp.ble.devices` request is answered by `authentication_required` only; a
wrong token gets `invalid_token`; the right token authenticates. -/
theorem auth_gate_spec_witness :
    (handleLine (σ := Unit) (some "s3cret") (fun s _ => (s, []))
        false () (some (.obj [("type", .str "mcp.ble.devices"), ("id", .str "b1")])) =
      ((false, ()), [mcpErr (.str "b1") "authentication_required"])) ∧
    (handleLine (σ := Unit) (some "s3cret") (fun s _ => (s, []))
        false () (some (.obj [("type", .str "mcp/auth"),
          ("payload", .obj [("token", .str "wrong")])])) =
      ((false, ()), [mcpErr .null "invalid_token"])) ∧
    (handleLine (σ := Unit) (some "s3cret") (fun s _ => (s, []))
        false () (some (.obj [("type", .str "mcp/auth"), ("id", .str "a1"),
          ("payload", .obj [("token", .str "s3cret")])])) =
      ((true, ()), [authOkEnv (.str "a1")])) := by
  refine ⟨?_, ?_, ?_⟩
  · exact (auth_gate_spec _ _ _ _).1
      (by simp [normType, getField, lookupKey, jsTruthy, lowerStr, lowerChar])
  · exact (auth_gate_spec _ _ _ _).2.1
      (by simp [normType, getField, lookupKey, jsTruthy, lowerStr, lowerChar])
      (by decide)
  · exact (auth_gate_spec _ _ _ _).2.2.1
      (by simp [normType, getField, lookupKey, jsTruthy, lowerStr, lowerChar])
      (by decide)

/-- Claim C5 — a record `JSON.parse` rejects elicits exactly the envelope
`{type:'mcp/error', id:null, payload:{code:'invalid_json'}}`, is not
dispatched, changes no connection or server state (the handler merely writes
and returns, so the connection stays open), and the remaining records of the
stream are processed exactly as if the malformed record were absent. -/
theorem invalid_json_spec {σ : Type} (secret : Option String)
    (dispatch : σ → JsonValue → σ × List Envelope)
    (authed : Bool) (st : σ) (rest : List (Option JsonValue)) :
    invalidJsonEnv = ⟨"mcp/error", .null, .obj [("code", .str "invalid_json")]⟩ ∧
    handleLine secret dispatch authed st none = ((authed, st), [invalidJsonEnv]) ∧
    processLines secret dispatch authed st (none :: rest) =
      ((processLines secret dispatch authed st rest).1,
        invalidJsonEnv :: (processLines secret dispatch authed st rest).2) := by
  refine ⟨rfl, rfl, ?_⟩
  simp [processLines, handleLine]

/-! ## Execution engine (`mcp.tool.execute` / `mcp.exec.cancel`)

The `mcp.tool.execute` branch creates
`{ toolId, status:'running', result:null, cancelFn:null }` in `this.executions`
and fires an async IIFE that awaits the handler; the settlement continuation
(store `cancelFn`/`result`, set the status, broadcast the terminal event) runs
atomically — JavaScript jobs run to completion and the continuation contains
no `await`.  Everything else that can touch the record afterwards is an
`onProgress` call by the handler or an `mcp.exec.cancel` request.  A promise
settles exactly once, so an execution's history is: interleaved
progress/cancel events, one settlement, then more interleaved events — the
`ExecTrace` type below. -/

/-- The execution status: `running`, `completed`, `failed` or `cancelled`. -/
inductive ExecStatus where
  | running
  | completed
  | failed
  | cancelled
deriving DecidableEq, Repr

/-- One entry of `this.executions`.  The stored cancel capability is an
opaque async function; all the engine does with it is `await rec.cancelFn()`,
so it is modelled by whether that call fulfills (`some ok`) or is absent
(`none`, JS `null`). -/
structure ExecRecord where
  toolId : String
  status : ExecStatus
  result : JsonValue
  cancelFn : Option Bool

/-- The record created at execute time (line
`this.executions.set(execId, { toolId, status: 'running', result: null,
cancelFn: null })`). -/
def initRecord (toolId : String) : ExecRecord :=
  ⟨toolId, .running, .null, none⟩

/-- How the handler's promise settles: a plain value, an object passing the
`typeof maybe === 'object' && typeof maybe.cancel === 'function'` test (with
its `result` field and the behaviour of its `cancel` function), or a
rejection with an error message. -/
inductive Settlement where
  | success (v : JsonValue)
  | successCancelable (res : JsonValue) (cancelOk : Bool)
  | failure (msg : String)

/-- A broadcast execution event (the `event` field of the
`mcp.tool.event` payload, with its `data` where the code sends one). -/
inductive BEvent where
  | progress (d : JsonValue)
  | completed (d : JsonValue)
  | failed (d : JsonValue)
  | cancelled

/-- Events that can hit an execution record outside the settlement
continuation: an `onProgress(d)` call by the handler, or an
`mcp.exec.cancel` request naming this execution. -/
inductive PendEvent where
  | progressCall (d : JsonValue)
  | cancelRequest

/-- The settlement continuation of the execute IIFE (both the `try` and the
`catch` arm): store `cancelFn`/`result`, set the terminal status, and
broadcast the terminal event carrying the stored result (`maybe.result ||
null` for a cancelable resolution) or `{error: message}`. -/
def settleStep (r : ExecRecord) : Settlement → ExecRecord × BEvent
  | .success v => ({r with result := v, status := .completed}, .completed v)
  | .successCancelable res ok =>
    let stored := if jsTruthy res then res else .null
    ({r with cancelFn := some ok, result := stored, status := .completed},
     .completed stored)
  | .failure m =>
    ({r with status := .failed, result := .obj [("error", .str m)]},
     .failed (.obj [("error", .str m)]))

/-- The broadcast event a settlement produces (record-independent). -/
def settleEvent : Settlement → BEvent
  | .success v => .completed v
  | .successCancelable res _ => .completed (if jsTruthy res then res else .null)
  | .failure m => .failed (.obj [("error", .str m)])

theorem settleStep_event (r : ExecRecord) (s : Settlement) :
    (settleStep r s).2 = settleEvent s := by
  cases s <;> rfl

/-- What an `mcp.exec.cancel` does to an existing record (lines
`if (rec.cancelFn && typeof rec.cancelFn === 'function') { try { await
rec.cancelFn(); rec.status = 'cancelled'; ...ack...; ...broadcast
cancelled... } catch { throw new Error('cancel_failed') } } else { throw new
Error('not_cancellable') }`): the record after the request, the events
broadcast, and the reply to the requester.  Note the code never consults
`rec.status`. -/
inductive CancelReply where
  | ack
  | errNotCancellable
  | errCancelFailed
deriving DecidableEq, Repr

def cancelCore (r : ExecRecord) : ExecRecord × List BEvent × CancelReply :=
  match r.cancelFn with
  | some true => ({r with status := .cancelled}, [.cancelled], .ack)
  | some false => (r, [], .errCancelFailed)
  | none => (r, [], .errNotCancellable)

/-- One pending event applied to a record: `onProgress` broadcasts to the
subscriber set at call time without touching the record or consulting its
status; a cancel request acts as `cancelCore`. -/
def pendStep (r : ExecRecord) : PendEvent → ExecRecord × List BEvent
  | .progressCall d => (r, [.progress d])
  | .cancelRequest => ((cancelCore r).1, (cancelCore r).2.1)

/-- A sequence of pending events, in order. -/
def runPend (r : ExecRecord) : List PendEvent → ExecRecord × List BEvent
  | [] => (r, [])
  | e :: es =>
    let s := pendStep r e
    let rest := runPend s.1 es
    (rest.1, s.2 ++ rest.2)

/-- The record states visited while applying pending events (head = before
the first event). -/
def pendStates (r : ExecRecord) : List PendEvent → List ExecRecord
  | [] => [r]
  | e :: es => r :: pendStates (pendStep r e).1 es

/-- An execution's history: its handler's promise settles exactly once;
progress/cancel events interleave before and after. -/
structure ExecTrace where
  pre : List PendEvent
  settle : Settlement
  post : List PendEvent

/-- Final record and the complete ordered broadcast sequence of one
execution. -/
def runTrace (toolId : String) (tr : ExecTrace) : ExecRecord × List BEvent :=
  let p1 := runPend (initRecord toolId) tr.pre
  let p2 := settleStep p1.1 tr.settle
  let p3 := runPend p2.1 tr.post
  (p3.1, p1.2 ++ p2.2 :: p3.2)

/-- Every record state an execution passes through. -/
def traceStates (toolId : String) (tr : ExecTrace) : List ExecRecord :=
  pendStates (initRecord toolId) tr.pre ++
  pendStates (settleStep (runPend (initRecord toolId) tr.pre).1 tr.settle).1 tr.post

/-! ### Outgoing envelopes of the execution engine -/

/-- The `broadcast(evtType, data)` closure of the execute branch:
`{type:'mcp.tool.event', id:null, payload:{event, execId, toolId, data,
ts: new Date().toISOString()}}` (`ts` supplied by the environment here). -/
def toolEventEnv (event execId toolId : String) (data : JsonValue) (ts : String) :
    Envelope :=
  ⟨"mcp.tool.event", .null,
   .obj [("event", .str event), ("execId", .str execId), ("toolId", .str toolId),
         ("data", data), ("ts", .str ts)]⟩

/-- The `cancelled` broadcast of the cancel branch:
`{type:'mcp.tool.event', id:null, payload:{event:'cancelled', execId, toolId,
ts}}` — built by a separate object literal with no `data` property. -/
def cancelledEventEnv (execId toolId ts : String) : Envelope :=
  ⟨"mcp.tool.event", .null,
   .obj [("event", .str "cancelled"), ("execId", .str execId),
         ("toolId", .str toolId), ("ts", .str ts)]⟩

/-- The ack `{type:'mcp.tool.execute.started', id, payload:{execId, toolId}}`. -/
def startedEnv (reqId : JsonValue) (execId toolId : String) : Envelope :=
  ⟨"mcp.tool.execute.started", reqId,
   .obj [("execId", .str execId), ("toolId", .str toolId)]⟩

/-- The ack `{type:'mcp.exec.cancel.ack', id, payload:{execId, status:'cancelled'}}`. -/
def cancelAckEnv (reqId : JsonValue) (execId : String) : Envelope :=
  ⟨"mcp.exec.cancel.ack", reqId,
   .obj [("execId", .str execId), ("status", .str "cancelled")]⟩

/-- Rendering of a broadcast event as the envelope written to each
subscriber. -/
def renderBEvent (execId toolId ts : String) : BEvent → Envelope
  | .progress d => toolEventEnv "progress" execId toolId d ts
  | .completed d => toolEventEnv "completed" execId toolId d ts
  | .failed d => toolEventEnv "failed" execId toolId d ts
  | .cancelled => cancelledEventEnv execId toolId ts

/-- The `mcp.exec.cancel` branch of `_handleMessage`, given the extracted
(truthy) `payload.execId`: returns the executions map after the request, the
envelopes written to the requester, and the envelopes broadcast to the
execution's subscriber set.  Unknown ids produce `execution_not_found`; the
`cancel_failed` / `not_cancellable` throws surface through the surrounding
`catch` as `mcp/error` envelopes with the message as `code`. -/
def handleCancel (execs : List (String × ExecRecord)) (execId : String)
    (reqId : JsonValue) (ts : String) :
    List (String × ExecRecord) × List Envelope × List Envelope :=
  match lookupKey execs execId with
  | none => (execs, [mcpErr reqId "execution_not_found"], [])
  | some r =>
    let c := cancelCore r
    match c.2.2 with
    | .ack =>
      (setKey execs execId c.1, [cancelAckEnv reqId execId],
       c.2.1.map (renderBEvent execId r.toolId ts))
    | .errCancelFailed => (execs, [mcpErr reqId "cancel_failed"], [])
    | .errNotCancellable => (execs, [mcpErr reqId "not_cancellable"], [])

/-! ### The single-connection linearization of one `mcp.tool.execute`

In the execute branch the async IIFE is invoked *before* the
`execute.started` write (line order: `(async () => { ... })();` then
`socket.write(...execute.started...)`).  Evaluating `await
entry.handler(input, context, onProgress)` calls the handler synchronously up
to its first suspension, so `onProgress` calls the handler makes
synchronously broadcast *before* the IIFE first suspends and control reaches
the `started` write.  After that write the connection's handler returns;
every later broadcast (progress after the first suspension, the settlement's
terminal event, late progress after settlement) happens on subsequent
event-loop jobs, in this order for a single execution observed by its
initiator. -/

/-- A handler's observable behaviour in the single-connection scenario:
`onProgress` calls made synchronously during invocation, `onProgress` calls
made after suspending but before settling, the settlement, and late
`onProgress` calls after settling. -/
structure HandlerRun where
  syncProgress : List JsonValue
  asyncProgress : List JsonValue
  settle : Settlement
  lateProgress : List JsonValue

/-- The ordered sequence of envelopes the initiating connection receives for
one `mcp.tool.execute` of a registered tool (subscriber set = {initiator}). -/
def executeWrites (reqId : JsonValue) (execId toolId : String) (h : HandlerRun)
    (ts : String) : List Envelope :=
  h.syncProgress.map (fun d => toolEventEnv "progress" execId toolId d ts) ++
  [startedEnv reqId execId toolId] ++
  h.asyncProgress.map (fun d => toolEventEnv "progress" execId toolId d ts) ++
  [renderBEvent execId toolId ts (settleEvent h.settle)] ++
  h.lateProgress.map (fun d => toolEventEnv "progress" execId toolId d ts)

/-! ## BLE subscription bookkeeping (`mcp.ble.subscribe` / `mcp.ble.unsubscribe`)

Per connection, `this.subscriptions.get(socket)` maps
`` `${deviceId}:${characteristicUuid}` `` to the listener closure passed to the
BLE collaborator.  Listener closures are identified by allocation order
(`nextId`); `registered` is the list of listeners currently registered with
the collaborator on this connection's behalf (§6 collaborator interface:
`subscribe(deviceId, charUuid, onData)` registers, `unsubscribe(deviceId,
charUuid, listener)` deregisters that listener). -/

structure BleConnState where
  registered : List Nat
  subMap : List (String × Nat)
  nextId : Nat
deriving DecidableEq, Repr

/-- The `mcp.ble.subscribe` branch: allocate a fresh listener closure, have
the collaborator register it, then `this.subscriptions.get(socket).set(key,
listener)` — a plain `Map.set`, overwriting any listener already stored under
the key. -/
def bleSubscribe (st : BleConnState) (key : String) : BleConnState :=
  { registered := st.registered ++ [st.nextId],
    subMap := setKey st.subMap key st.nextId,
    nextId := st.nextId + 1 }

/-- The `mcp.ble.unsubscribe` branch: look the listener up by key; when
present, have the collaborator deregister it and delete the map entry;
when absent the request fails (`not_subscribed`) and nothing changes. -/
def bleUnsubscribe (st : BleConnState) (key : String) : Option BleConnState :=
  match lookupKey st.subMap key with
  | some l =>
    some { registered := st.registered.filter (fun x => x != l),
           subMap := delKey st.subMap key,
           nextId := st.nextId }
  | none => none

/-- A listener is reachable on a connection when some key of its subscription
map still stores it (the property `ble.unsubscribe` and `_cleanSubscriptions`
rely on to deregister it). -/
def reachable (st : BleConnState) (l : Nat) : Bool :=
  (st.subMap.map Prod.snd).contains l

/-! ## Helper lemmas on the execution step functions -/

theorem pendStep_cancelFn (r : ExecRecord) (e : PendEvent) :
    (pendStep r e).1.cancelFn = r.cancelFn := by
  cases e with
  | progressCall d => rfl
  | cancelRequest =>
    cases hc : r.cancelFn with
    | none => simp [pendStep, cancelCore, hc]
    | some b => cases b <;> simp [pendStep, cancelCore, hc]

theorem pendStep_of_cancelFn_none (r : ExecRecord) (h : r.cancelFn = none)
    (e : PendEvent) : (pendStep r e).1 = r := by
  cases e with
  | progressCall d => rfl
  | cancelRequest => simp [pendStep, cancelCore, h]

theorem runPend_of_cancelFn_none (r : ExecRecord) (h : r.cancelFn = none)
    (es : List PendEvent) : (runPend r es).1 = r := by
  induction es with
  | nil => rfl
  | cons e es ih =>
    simp only [runPend]
    rw [pendStep_of_cancelFn_none r h e]
    exact ih

theorem pendStates_of_cancelFn_none (r : ExecRecord) (h : r.cancelFn = none)
    (es : List PendEvent) : ∀ s ∈ pendStates r es, s = r := by
  induction es with
  | nil => intro s hs; simpa [pendStates] using hs
  | cons e es ih =>
    intro s hs
    simp only [pendStates] at hs
    rcases List.mem_cons.mp hs with h1 | h1
    · exact h1
    · rw [pendStep_of_cancelFn_none r h e] at h1
      exact ih s h1

theorem pendStep_status_not_running (r : ExecRecord) (e : PendEvent)
    (h : r.status ≠ .running) : (pendStep r e).1.status ≠ .running := by
  cases e with
  | progressCall d => exact h
  | cancelRequest =>
    cases hc : r.cancelFn with
    | none => simpa [pendStep, cancelCore, hc] using h
    | some b =>
      cases b with
      | false => simpa [pendStep, cancelCore, hc] using h
      | true => simp [pendStep, cancelCore, hc]

theorem pendStates_status_not_running (r : ExecRecord) (es : List PendEvent)
    (h : r.status ≠ .running) : ∀ s ∈ pendStates r es, s.status ≠ .running := by
  induction es generalizing r with
  | nil => intro s hs; simp only [pendStates, List.mem_singleton] at hs; exact hs ▸ h
  | cons e es ih =>
    intro s hs
    simp only [pendStates] at hs
    rcases List.mem_cons.mp hs with h1 | h1
    · exact h1 ▸ h
    · exact ih _ (pendStep_status_not_running r e h) s h1

theorem settleStep_status_not_running (r : ExecRecord) (s : Settlement) :
    (settleStep r s).1.status ≠ .running := by
  cases s <;> simp [settleStep]

/-- Claim C10 — the stored cancel capability stays `null` until the handler's
promise settles (indeed, the whole record is untouched until then), so every
reachable record with status `running` carries no capability; consequently an
`mcp.exec.cancel` processed while the record is `running` takes the
`not_cancellable` branch and changes nothing, and a cancel can only ever
invoke a capability on an execution whose handler has already settled. -/
theorem cancel_only_after_settlement (toolId : String) (tr : ExecTrace) :
    (∀ s ∈ pendStates (initRecord toolId) tr.pre, s = initRecord toolId) ∧
    (∀ s ∈ traceStates toolId tr, s.status = .running → s.cancelFn = none) ∧
    (∀ s ∈ traceStates toolId tr, s.status = .running →
      cancelCore s = (s, [], .errNotCancellable)) ∧
    (∀ (execs : List (String × ExecRecord)) execId reqId ts r,
      lookupKey execs execId = some r → r.cancelFn = none →
      handleCancel execs execId reqId ts =
        (execs, [mcpErr reqId "not_cancellable"], [])) := by
  have hpre : ∀ s ∈ pendStates (initRecord toolId) tr.pre, s = initRecord toolId :=
    pendStates_of_cancelFn_none _ rfl tr.pre
  have hinv : ∀ s ∈ traceStates toolId tr, s.status = .running → s.cancelFn = none := by
    intro s hs hrun
    rcases List.mem_append.mp hs with h1 | h1
    · rw [hpre s h1]; rfl
    · exact absurd hrun
        (pendStates_status_not_running _ tr.post (settleStep_status_not_running _ _) s h1)
  refine ⟨hpre, hinv, ?_, ?_⟩
  · intro s hs hrun
    have := hinv s hs hrun
    simp [cancelCore, this]
  · intro execs execId reqId ts r hlk hcf
    simp [handleCancel, hlk, cancelCore, hcf]

/-- Witness for C10: in the run where the initiator requests a cancel before
the handler settles, the pre-settlement record is the fresh one and the cancel
is answered `not_cancellable` with the executions map unchanged. -/
theorem cancel_only_after_settlement_witness :
    cancelCore (initRecord "echo") = (initRecord "echo", [], .errNotCancellable) ∧
    handleCancel [("E1", initRecord "echo")] "E1" (.str "c1") "T" =
      ([("E1", initRecord "echo")], [mcpErr (.str "c1") "not_cancellable"], []) := by
  constructor
  · exact (cancel_only_after_settlement "echo" ⟨[], .success .null, []⟩).2.2.1
      (initRecord "echo")
      (by simp [traceStates, pendStates, runPend, settleStep, initRecord]) rfl
  · exact (cancel_only_after_settlement "echo" ⟨[], .success .null, []⟩).2.2.2
      [("E1", initRecord "echo")] "E1" (.str "c1") "T" (initRecord "echo") rfl rfl

/-- Terminal events among broadcasts: one of completed/failed/cancelled. -/
def isTerminalEvent : BEvent → Bool
  | .completed _ => true
  | .failed _ => true
  | .cancelled => true
  | .progress _ => false

/-- Settlement events among broadcasts: completed or failed. -/
def isSettleEventB : BEvent → Bool
  | .completed _ => true
  | .failed _ => true
  | _ => false

def isCancelReq : PendEvent → Bool
  | .cancelRequest => true
  | _ => false

theorem pendStep_no_settle_events (r : ExecRecord) (e : PendEvent) :
    (pendStep r e).2.countP isSettleEventB = 0 := by
  cases e with
  | progressCall d => simp [pendStep, isSettleEventB]
  | cancelRequest =>
    cases hc : r.cancelFn with
    | none => simp [pendStep, cancelCore, hc]
    | some b => cases b <;> simp [pendStep, cancelCore, hc, isSettleEventB]

theorem runPend_no_settle_events (r : ExecRecord) (es : List PendEvent) :
    (runPend r es).2.countP isSettleEventB = 0 := by
  induction es generalizing r with
  | nil => rfl
  | cons e es ih =>
    simp only [runPend, List.countP_append, pendStep_no_settle_events, ih]

theorem settleEvent_isSettle (s : Settlement) :
    isSettleEventB (settleEvent s) = true := by
  cases s <;> rfl

theorem progress_mem_runPend (r : ExecRecord) (es : List PendEvent) (d : JsonValue)
    (h : PendEvent.progressCall d ∈ es) : BEvent.progress d ∈ (runPend r es).2 := by
  induction es generalizing r with
  | nil => cases h
  | cons e es ih =>
    simp only [runPend]
    rcases List.mem_cons.mp h with h1 | h1
    · rw [← h1]
      simp [pendStep]
    · exact List.mem_append_right _ (ih _ h1)

theorem runPend_cancelable_status (r : ExecRecord) (h : r.cancelFn = some true)
    (es : List PendEvent) :
    (runPend r es).1.status =
      (if es.any isCancelReq then .cancelled else r.status) ∧
    (runPend r es).1.cancelFn = some true := by
  induction es generalizing r with
  | nil => exact ⟨by simp [runPend], by simpa [runPend] using h⟩
  | cons e es ih =>
    cases e with
    | progressCall d =>
      have hrec := ih r h
      simp only [runPend, pendStep]
      simpa [isCancelReq] using hrec
    | cancelRequest =>
      obtain ⟨tid, st0, res0, cf⟩ := r
      replace h : cf = some true := h
      subst h
      have hrec := ih ⟨tid, .cancelled, res0, some true⟩ rfl
      simp only [runPend, pendStep, cancelCore]
      rcases hrec with ⟨h1, h2⟩
      refine ⟨?_, h2⟩
      rw [h1]
      cases hany : es.any isCancelReq <;> simp [isCancelReq, hany]

/-- Counterexample to claim C1: a handler resolves with a cancel-capable
object; the engine broadcasts `completed` and marks the record terminal; a
later `mcp.exec.cancel` still flips the status to `cancelled` and broadcasts
a second terminal event, and a late `onProgress` call afterwards broadcasts a
further progress event — two terminal events where the claim allows at most
one, an event after the terminal one, and a status change after terminal. -/
theorem terminal_not_final_cex :
    (runTrace "clock" ⟨[], .successCancelable (.str "handle") true,
        [.cancelRequest, .progressCall (.num 1)]⟩).2 =
      [.completed (.str "handle"), .cancelled, .progress (.num 1)] ∧
    (runTrace "clock" ⟨[], .successCancelable (.str "handle") true,
        [.cancelRequest, .progressCall (.num 1)]⟩).2.countP isTerminalEvent = 2 ∧
    (runTrace "clock" ⟨[], .successCancelable (.str "handle") true,
        [.cancelRequest, .progressCall (.num 1)]⟩).1.status = .cancelled := by
  refine ⟨rfl, by decide, rfl⟩

/-- Claim C1 as amended — what the code actually guarantees: (1) every
execution broadcasts exactly one settlement event (`completed` or `failed`);
(2) a failed execution stays `failed` forever (no capability was stored, so
later cancels and progress calls change nothing); (3) late `onProgress` calls
are *not* suppressed: every progress call after settlement still broadcasts;
(4) after a cancel-capable resolution the status is `cancelled` exactly when
some cancel request follows, else stays `completed` — i.e. cancel requests do
re-terminate a completed execution. -/
theorem terminal_events_amended (toolId : String) (tr : ExecTrace) :
    ((runTrace toolId tr).2.countP isSettleEventB = 1) ∧
    (∀ m (pre post : List PendEvent),
      (runTrace toolId ⟨pre, .failure m, post⟩).1.status = .failed) ∧
    (∀ d, PendEvent.progressCall d ∈ tr.post →
      BEvent.progress d ∈ (runTrace toolId tr).2) ∧
    (∀ res (pre post : List PendEvent),
      (runTrace toolId ⟨pre, .successCancelable res true, post⟩).1.status =
        (if post.any isCancelReq then .cancelled else .completed)) := by
  refine ⟨?_, ?_, ?_, ?_⟩
  · simp only [runTrace, List.countP_append, List.countP_cons,
      runPend_no_settle_events, settleStep_event, settleEvent_isSettle]
    simp
  · intro m pre post
    simp only [runTrace]
    rw [runPend_of_cancelFn_none (initRecord toolId) rfl pre]
    have h2 : (settleStep (initRecord toolId) (.failure m)).1.cancelFn = none := rfl
    rw [runPend_of_cancelFn_none _ h2 post]
    rfl
  · intro d hd
    simp only [runTrace]
    exact List.mem_append_right _ (List.mem_cons_of_mem _
      (progress_mem_runPend _ tr.post d hd))
  · intro res pre post
    simp only [runTrace]
    rw [runPend_of_cancelFn_none (initRecord toolId) rfl pre]
    have h2 : (settleStep (initRecord toolId) (.successCancelable res true)).1.cancelFn =
        some true := rfl
    have h3 := (runPend_cancelable_status _ h2 post).1
    rw [h3]
    rfl

/-- Witness for the amended C1: concrete runs showing one settlement event,
a failed run staying failed, a late progress call broadcasting, and a
cancel-after-completion re-terminating. -/
theorem terminal_events_amended_witness :
    (runTrace "echo" ⟨[], .success .null, [.progressCall (.num 7)]⟩).2.countP
      isSettleEventB = 1 ∧
    (runTrace "echo" ⟨[], .failure "boom", [.cancelRequest]⟩).1.status = .failed ∧
    BEvent.progress (.num 7) ∈
      (runTrace "echo" ⟨[], .success .null, [.progressCall (.num 7)]⟩).2 ∧
    (runTrace "echo" ⟨[], .successCancelable .null true, [.cancelRequest]⟩).1.status =
      .cancelled := by
  refine ⟨(terminal_events_amended "echo" _).1, ?_, ?_, ?_⟩
  · exact (terminal_events_amended "echo" ⟨[], .failure "boom", [.cancelRequest]⟩).2.1
      "boom" [] [.cancelRequest]
  · exact (terminal_events_amended "echo"
      ⟨[], .success .null, [.progressCall (.num 7)]⟩).2.2.1 (.num 7)
      (List.mem_singleton.mpr rfl)
  · have h := (terminal_events_amended "echo"
      ⟨[], .successCancelable .null true, [.cancelRequest]⟩).2.2.2 .null []
      [.cancelRequest]
    simpa [isCancelReq] using h

/-- True when no `mcp.tool.event` envelope is written before the
`execute.started` envelope. -/
def startedBeforeEvents (ws : List Envelope) : Bool :=
  (ws.takeWhile (fun e => e.type != "mcp.tool.execute.started")).all
    (fun e => e.type != "mcp.tool.event")

theorem takeWhile_append_cons {α : Type} (p : α → Bool) (l1 : List α) (a : α)
    (l2 : List α) (h1 : ∀ x ∈ l1, p x = true) (h2 : p a = false) :
    (l1 ++ a :: l2).takeWhile p = l1 := by
  induction l1 with
  | nil => simp [List.takeWhile, h2]
  | cons x xs ih =>
    have hx : p x = true := h1 x (List.mem_cons_self x xs)
    simp only [List.cons_append, List.takeWhile_cons, hx, if_true]
    rw [ih (fun y hy => h1 y (List.mem_cons_of_mem x hy))]

/-- Counterexample to claim C2: a handler that calls `onProgress`
synchronously during its invocation.  The async IIFE is started before the
`execute.started` write, and `await entry.handler(...)` runs the handler
synchronously up to its first suspension, so the progress broadcast reaches
the initiator *before* the `started` envelope. -/
theorem started_before_events_cex :
    executeWrites (.str "e1") "E" "echo" ⟨[.num 1], [], .success .null, []⟩ "T" =
      [toolEventEnv "progress" "E" "echo" (.num 1) "T",
       startedEnv (.str "e1") "E" "echo",
       toolEventEnv "completed" "E" "echo" .null "T"] ∧
    startedBeforeEvents
      (executeWrites (.str "e1") "E" "echo" ⟨[.num 1], [], .success .null, []⟩ "T") =
      false := by
  exact ⟨rfl, rfl⟩

/-- Claim C2 as amended — the writes preceding `execute.started` are exactly
the progress events of the `onProgress` calls the handler makes synchronously
during its invocation; everything else (async progress, the terminal
completed/failed event, late progress) follows the `started` write.  In
particular, for every handler that makes no synchronous `onProgress` call,
`started` precedes every event of the execution. -/
theorem started_ordering_amended (reqId : JsonValue) (execId toolId : String)
    (h : HandlerRun) (ts : String) :
    ((executeWrites reqId execId toolId h ts).takeWhile
        (fun e => e.type != "mcp.tool.execute.started") =
      h.syncProgress.map (fun d => toolEventEnv "progress" execId toolId d ts)) ∧
    (h.syncProgress = [] →
      startedBeforeEvents (executeWrites reqId execId toolId h ts) = true) := by
  have hsplit : executeWrites reqId execId toolId h ts =
      h.syncProgress.map (fun d => toolEventEnv "progress" execId toolId d ts) ++
      startedEnv reqId execId toolId ::
        (h.asyncProgress.map (fun d => toolEventEnv "progress" execId toolId d ts) ++
         [renderBEvent execId toolId ts (settleEvent h.settle)] ++
         h.lateProgress.map (fun d => toolEventEnv "progress" execId toolId d ts)) := by
    simp [executeWrites]
  have htake : (executeWrites reqId execId toolId h ts).takeWhile
      (fun e => e.type != "mcp.tool.execute.started") =
      h.syncProgress.map (fun d => toolEventEnv "progress" execId toolId d ts) := by
    rw [hsplit]
    refine takeWhile_append_cons _ _ _ _ ?_ (by rfl)
    intro x hx
    rcases List.mem_map.mp hx with ⟨d, _, rfl⟩
    rfl
  refine ⟨htake, ?_⟩
  intro hsync
  rw [startedBeforeEvents, htake, hsync]
  rfl

/-- Witness for the amended C2: a handler with no synchronous progress call
(async progress, a result, and a late progress call) has its `started` write
before every event envelope. -/
theorem started_ordering_amended_witness :
    startedBeforeEvents (executeWrites (.str "e2") "E2" "echo"
      ⟨[], [.num 50], .success (.num 9), [.num 99]⟩ "T") = true :=
  (started_ordering_amended (.str "e2") "E2" "echo"
    ⟨[], [.num 50], .success (.num 9), [.num 99]⟩ "T").2 rfl

/-- Counterexample to claim C3: a record that is already terminal
(`completed`, as every record holding a cancel capability is) is *not*
rejected with `not_cancellable` — the code never consults `rec.status`, so the
cancel capability is invoked, the status flips `completed → cancelled`, the
requester is acked and a `cancelled` event is broadcast. -/
theorem cancel_terminal_cex :
    handleCancel [("E", ⟨"clock", .completed, .str "handle", some true⟩)] "E"
        (.str "c1") "T" =
      ([("E", ⟨"clock", .cancelled, .str "handle", some true⟩)],
       [cancelAckEnv (.str "c1") "E"],
       [cancelledEventEnv "E" "clock" "T"]) := by
  rfl

/-- Claim C3 as amended — `mcp.exec.cancel` fails with `execution_not_found`
for an unknown execId; fails with `not_cancellable` exactly when the record
carries no cancel capability (terminal status alone does not make it fail:
cancelability is decided by `rec.cancelFn` only); when invoking the stored
capability fails, the request is answered `cancel_failed` and the record —
its status included — is left unchanged; when the capability succeeds the
record transitions to `cancelled` (whatever its prior status) and a
`cancelled` event (identifiers and timestamp, no data) is broadcast after the
ack. -/
theorem cancel_spec_amended (execs : List (String × ExecRecord)) (execId : String)
    (reqId : JsonValue) (ts : String) :
    (lookupKey execs execId = none →
      handleCancel execs execId reqId ts =
        (execs, [mcpErr reqId "execution_not_found"], [])) ∧
    (∀ r, lookupKey execs execId = some r → r.cancelFn = none →
      handleCancel execs execId reqId ts =
        (execs, [mcpErr reqId "not_cancellable"], [])) ∧
    (∀ r, lookupKey execs execId = some r → r.cancelFn = some false →
      handleCancel execs execId reqId ts =
        (execs, [mcpErr reqId "cancel_failed"], [])) ∧
    (∀ r, lookupKey execs execId = some r → r.cancelFn = some true →
      handleCancel execs execId reqId ts =
        (setKey execs execId {r with status := .cancelled},
         [cancelAckEnv reqId execId],
         [cancelledEventEnv execId r.toolId ts])) := by
  refine ⟨?_, ?_, ?_, ?_⟩
  · intro hlk; simp [handleCancel, hlk]
  · intro r hlk hcf; simp [handleCancel, hlk, cancelCore, hcf]
  · intro r hlk hcf; simp [handleCancel, hlk, cancelCore, hcf]
  · intro r hlk hcf
    simp [handleCancel, hlk, cancelCore, hcf, renderBEvent]

/-- Witness for the amended C3: the four branches at concrete inputs — an
unknown id, a running record without capability, a record whose capability
fails (status left `completed`), and a record whose capability succeeds. -/
theorem cancel_spec_amended_witness :
    handleCancel [] "nope" (.str "c0") "T" =
      ([], [mcpErr (.str "c0") "execution_not_found"], []) ∧
    handleCancel [("A", initRecord "echo")] "A" (.str "c1") "T" =
      ([("A", initRecord "echo")], [mcpErr (.str "c1") "not_cancellable"], []) ∧
    handleCancel [("B", ⟨"clock", .completed, .null, some false⟩)] "B"
        (.str "c2") "T" =
      ([("B", ⟨"clock", .completed, .null, some false⟩)],
       [mcpErr (.str "c2") "cancel_failed"], []) ∧
    handleCancel [("C", ⟨"clock", .completed, .null, some true⟩)] "C"
        (.str "c3") "T" =
      ([("C", ⟨"clock", .cancelled, .null, some true⟩)],
       [cancelAckEnv (.str "c3") "C"], [cancelledEventEnv "C" "clock" "T"]) := by
  refine ⟨?_, ?_, ?_, ?_⟩
  · exact (cancel_spec_amended [] "nope" (.str "c0") "T").1 rfl
  · exact (cancel_spec_amended _ "A" (.str "c1") "T").2.1 (initRecord "echo") rfl rfl
  · exact (cancel_spec_amended _ "B" (.str "c2") "T").2.2.1
      ⟨"clock", .completed, .null, some false⟩ rfl rfl
  · exact (cancel_spec_amended _ "C" (.str "c3") "T").2.2.2
      ⟨"clock", .completed, .null, some true⟩ rfl rfl

/-- Counterexample to claim C8: no broadcast payload carries a `timestamp`
field (the code names it `ts`), and the `cancelled` broadcast carries no
`data` field at all. -/
theorem event_payload_cex :
    ¬ ("timestamp" ∈ objKeys (toolEventEnv "progress" "E" "echo" (.num 1) "T").payload) ∧
    ¬ ("data" ∈ objKeys (cancelledEventEnv "E" "echo" "T").payload) ∧
    objKeys (toolEventEnv "progress" "E" "echo" (.num 1) "T").payload =
      ["event", "execId", "toolId", "data", "ts"] := by
  refine ⟨by decide, by decide, rfl⟩

/-- Claim C8 as amended — every `mcp.tool.event` envelope the execute flow
broadcasts has `id:null` and a payload with exactly the fields
`event, execId, toolId, data, ts` (in that order), and every envelope the
cancel branch broadcasts has `type:'mcp.tool.event'`, `id:null` and a payload
with exactly `event, execId, toolId, ts` — no `data` field. -/
theorem event_payload_amended :
    (∀ (reqId : JsonValue) (execId toolId : String) (h : HandlerRun) (ts : String)
      (env : Envelope), env ∈ executeWrites reqId execId toolId h ts →
      env.type = "mcp.tool.event" →
      env.id = .null ∧
        objKeys env.payload = ["event", "execId", "toolId", "data", "ts"]) ∧
    (∀ (execs : List (String × ExecRecord)) (execId : String) (reqId : JsonValue)
      (ts : String) (env : Envelope), env ∈ (handleCancel execs execId reqId ts).2.2 →
      env.type = "mcp.tool.event" ∧ env.id = .null ∧
        objKeys env.payload = ["event", "execId", "toolId", "ts"]) := by
  constructor
  · intro reqId execId toolId h ts env hmem hty
    rw [executeWrites] at hmem
    simp only [List.append_assoc, List.singleton_append] at hmem
    rcases List.mem_append.mp hmem with h1 | h1
    · rcases List.mem_map.mp h1 with ⟨d, _, rfl⟩
      exact ⟨rfl, rfl⟩
    rcases List.mem_cons.mp h1 with h2 | h2
    · rw [h2] at hty
      simp [startedEnv] at hty
    rcases List.mem_append.mp h2 with h3 | h3
    · rcases List.mem_map.mp h3 with ⟨d, _, rfl⟩
      exact ⟨rfl, rfl⟩
    rcases List.mem_cons.mp h3 with h4 | h4
    · rw [h4]
      cases hs : h.settle <;> simp [settleEvent, renderBEvent, toolEventEnv, objKeys]
    · rcases List.mem_map.mp h4 with ⟨d, _, rfl⟩
      exact ⟨rfl, rfl⟩
  · intro execs execId reqId ts env hmem
    rw [handleCancel] at hmem
    rcases hlk : lookupKey execs execId with _ | r
    · rw [hlk] at hmem; cases hmem
    rw [hlk] at hmem
    rcases hcf : r.cancelFn with _ | b
    · simp [cancelCore, hcf] at hmem
    cases b with
    | false => simp [cancelCore, hcf] at hmem
    | true =>
      simp only [cancelCore, hcf] at hmem
      simp only [List.map, List.mem_singleton] at hmem
      rw [hmem]
      exact ⟨rfl, rfl, rfl⟩

/-- Witness for the amended C8: a concrete completed-event envelope from the
execute flow and the concrete cancelled envelope from the cancel branch. -/
theorem event_payload_amended_witness :
    (toolEventEnv "completed" "E3" "echo" (.num 2) "T").id = .null ∧
    objKeys (toolEventEnv "completed" "E3" "echo" (.num 2) "T").payload =
      ["event", "execId", "toolId", "data", "ts"] ∧
    objKeys (cancelledEventEnv "C" "clock" "T").payload =
      ["event", "execId", "toolId", "ts"] := by
  have h1 := event_payload_amended.1 (.str "e3") "E3" "echo"
    ⟨[], [], .success (.num 2), []⟩ "T"
    (toolEventEnv "completed" "E3" "echo" (.num 2) "T")
    (by simp [executeWrites, settleEvent, renderBEvent]) rfl
  have h2 := event_payload_amended.2
    [("C", (⟨"clock", .completed, .null, some true⟩ : ExecRecord))] "C" (.str "c9") "T"
    (cancelledEventEnv "C" "clock" "T")
    (by simp [handleCancel, lookupKey, cancelCore, renderBEvent])
  exact ⟨h1.1, h1.2, h2.2.2⟩

/-! ## Helper lemmas on `setKey`/`lookupKey` values -/

theorem lookup_setKey_self {κ α : Type} [DecidableEq κ] (m : List (κ × α))
    (k : κ) (v : α) : lookupKey (setKey m k v) k = some v := by
  induction m with
  | nil => simp [setKey, lookupKey]
  | cons p rest ih =>
    obtain ⟨k', v'⟩ := p
    by_cases hk : k' = k
    · simp [setKey, lookupKey, hk]
    · simp [setKey, lookupKey, hk, ih]

theorem setKey_of_lookup_none {κ α : Type} [DecidableEq κ] (m : List (κ × α))
    (k : κ) (v : α) (h : lookupKey m k = none) : setKey m k v = m ++ [(k, v)] := by
  induction m with
  | nil => rfl
  | cons p rest ih =>
    obtain ⟨k', v'⟩ := p
    by_cases hk : k' = k
    · simp [lookupKey, hk] at h
    · simp only [lookupKey, hk, if_false] at h
      simp [setKey, hk, ih h]

theorem lookup_mem_values {κ α : Type} [DecidableEq κ] (m : List (κ × α))
    (k : κ) (l : α) (h : lookupKey m k = some l) : l ∈ m.map Prod.snd := by
  induction m with
  | nil => simp [lookupKey] at h
  | cons p rest ih =>
    obtain ⟨k', v'⟩ := p
    by_cases hk : k' = k
    · simp only [lookupKey, hk, if_true, Option.some.injEq] at h
      simp [h]
    · simp only [lookupKey, hk, if_false] at h
      simp [ih h]

theorem notin_values_setKey {κ α : Type} [DecidableEq κ] (m : List (κ × α))
    (k : κ) (l v : α) (h : lookupKey m k = some l)
    (hnd : (m.map Prod.snd).Nodup) (hv : v ≠ l) :
    l ∉ (setKey m k v).map Prod.snd := by
  induction m with
  | nil => simp [lookupKey] at h
  | cons p rest ih =>
    obtain ⟨k', v'⟩ := p
    simp only [List.map_cons, List.nodup_cons] at hnd
    by_cases hk : k' = k
    · simp only [lookupKey, hk, if_true, Option.some.injEq] at h
      subst h
      simp only [setKey, hk, if_true, List.map_cons, List.mem_cons]
      intro hc
      rcases hc with hc | hc
      · exact hv hc.symm
      · exact hnd.1 hc
    · simp only [lookupKey, hk, if_false] at h
      simp only [setKey, hk, if_false, List.map_cons, List.mem_cons]
      intro hc
      rcases hc with hc | hc
      · exact hnd.1 (hc ▸ lookup_mem_values rest k l h)
      · exact ih h hnd.2 hc

theorem reachable_iff (st : BleConnState) (l : Nat) :
    reachable st l = true ↔ l ∈ st.subMap.map Prod.snd := by
  simp [reachable, List.contains, List.elem_iff]

/-- Counterexample to claim C9: subscribing twice to the same
`deviceId:characteristicUuid` key registers two listeners with the
collaborator but `Map.set` silently overwrites the stored reference — the
first listener (id 0) is still registered (it was never deregistered) yet no
longer reachable through the connection's subscription map. -/
theorem ble_resubscribe_cex :
    bleSubscribe (bleSubscribe ⟨[], [], 0⟩ "dev1:char1") "dev1:char1" =
      ⟨[0, 1], [("dev1:char1", 1)], 2⟩ ∧
    0 ∈ (bleSubscribe (bleSubscribe ⟨[], [], 0⟩ "dev1:char1") "dev1:char1").registered ∧
    reachable (bleSubscribe (bleSubscribe ⟨[], [], 0⟩ "dev1:char1") "dev1:char1") 0 =
      false := by
  refine ⟨rfl, by decide, rfl⟩

/-- Claim C9 as amended — after `ble.subscribe` for `key`: the new listener is
registered and reachable under `key`; but when `key` was already subscribed
(with distinct stored listeners, as the code constructs them), the prior
listener remains registered with the collaborator while no key of the
subscription map reaches it any more — it is leaked, and neither
`ble.unsubscribe` nor teardown can deregister it.  Only when `key` was not
previously subscribed does the operation preserve the all-registered-listeners
-are-reachable invariant. -/
theorem ble_resubscribe_amended (st : BleConnState) (key : String) :
    (lookupKey (bleSubscribe st key).subMap key = some st.nextId) ∧
    (st.nextId ∈ (bleSubscribe st key).registered) ∧
    (∀ l, lookupKey st.subMap key = some l → l ∈ st.registered →
      (st.subMap.map Prod.snd).Nodup → l ≠ st.nextId →
      l ∈ (bleSubscribe st key).registered ∧
        reachable (bleSubscribe st key) l = false) ∧
    (lookupKey st.subMap key = none →
      (∀ l ∈ st.registered, reachable st l = true) →
      ∀ l ∈ (bleSubscribe st key).registered,
        reachable (bleSubscribe st key) l = true) := by
  refine ⟨lookup_setKey_self st.subMap key st.nextId, by simp [bleSubscribe], ?_, ?_⟩
  · intro l hlk hreg hnd hne
    constructor
    · simp [bleSubscribe, hreg]
    · have hno : l ∉ ((setKey st.subMap key st.nextId).map Prod.snd) :=
        notin_values_setKey st.subMap key l st.nextId hlk hnd (fun he => hne he.symm)
      exact Bool.eq_false_iff.mpr
        (fun htrue => hno ((reachable_iff _ _).mp htrue))
  · intro hlk hinv l hl
    have hsub : (bleSubscribe st key).subMap = st.subMap ++ [(key, st.nextId)] := by
      simp [bleSubscribe, setKey_of_lookup_none st.subMap key st.nextId hlk]
    rw [reachable_iff]
    rw [hsub, List.map_append]
    simp only [bleSubscribe, List.mem_append, List.mem_singleton] at hl
    rcases hl with hl | hl
    · exact List.mem_append_left _ ((reachable_iff st l).mp (hinv l hl))
    · subst hl
      exact List.mem_append_right _ (by simp)

/-- Witness for the amended C9: on a connection with one live subscription
(`k ↦ 0`), re-subscribing to `k` leaves listener 0 registered but
unreachable, and the fresh listener 1 is stored under `k`. -/
theorem ble_resubscribe_amended_witness :
    lookupKey (bleSubscribe ⟨[0], [("k", 0)], 1⟩ "k").subMap "k" = some 1 ∧
    0 ∈ (bleSubscribe ⟨[0], [("k", 0)], 1⟩ "k").registered ∧
    reachable (bleSubscribe ⟨[0], [("k", 0)], 1⟩ "k") 0 = false := by
  have h1 := (ble_resubscribe_amended ⟨[0], [("k", 0)], 1⟩ "k").1
  have h3 := (ble_resubscribe_amended ⟨[0], [("k", 0)], 1⟩ "k").2.2.1 0 rfl
    (by decide) (by decide) (by decide)
  exact ⟨h1, h3.1, h3.2⟩

end BLE2WebSvc
